import Mathlib

/-!
# Verification of the MSPypeline sample-design inference engine

Shallow embedding of the Spectronaut reader (`mspypeline/file_reader/SpectroReader.py`)
and the hierarchy-building helpers (`mspypeline/helpers/Utils.py`), together with
theorems settling the frozen claims about the natural-language specification.

All separators used by the Python code (`"_"`, `" "`, `"."`, `";"`) are single
characters, so Python's `str.split(sep)` is embedded as a character-level splitter
`splitCL` over `String.data`, and substring containment (`"x" in s`) as `pyIn`.
-/

namespace MSPy

/-- Python `str.split(sep)` for a one-character separator, on character lists.
`splitCL c [] = [[]]` matches Python's `"".split(c) == ['']`; parts never
contain the separator and splitting `"a_"` yields `["a", ""]`, as in Python. -/
def splitCL (c : Char) : List Char → List (List Char)
  | [] => [[]]
  | x :: xs =>
    if x = c then [] :: splitCL c xs
    else
      match splitCL c xs with
      | [] => [[x]]
      | h :: t => (x :: h) :: t

/-- Python `str.split(sep)` for a one-character separator `c`, on strings. -/
def pySplit (c : Char) (s : String) : List String :=
  (splitCL c s.data).map (fun l => String.mk l)

/-- Substring search on character lists (Python `sub in s`). -/
def pyInL (pat : List Char) : List Char → Bool
  | [] => pat.isEmpty
  | x :: xs => pat.isPrefixOf (x :: xs) || pyInL pat xs

/-- Python `sub in s` substring containment. -/
def pyIn (sub s : String) : Bool :=
  pyInL sub.data s.data

theorem splitCL_ne_nil (c : Char) (l : List Char) : splitCL c l ≠ [] := by
  induction l with
  | nil => simp [splitCL]
  | cons x xs ih =>
    simp only [splitCL]
    by_cases hx : x = c
    · simp [hx]
    · simp only [if_neg hx]
      rcases h : splitCL c xs with _ | ⟨h1, t1⟩
      · simp
      · simp

theorem splitCL_not_mem (c : Char) (l : List Char) :
    ∀ p ∈ splitCL c l, c ∉ p := by
  induction l with
  | nil =>
    intro p hp
    simp [splitCL] at hp
    simp [hp]
  | cons x xs ih =>
    intro p hp
    simp only [splitCL] at hp
    by_cases hx : x = c
    · rw [if_pos hx] at hp
      rcases List.mem_cons.mp hp with rfl | hp
      · simp
      · exact ih p hp
    · rw [if_neg hx] at hp
      rcases h : splitCL c xs with _ | ⟨h1, t1⟩
      · rw [h] at hp
        simp at hp
        simp [hp, Ne.symm hx]
      · rw [h] at hp
        rcases List.mem_cons.mp hp with rfl | hp
        · intro hc
          rcases List.mem_cons.mp hc with rfl | hc
          · exact hx rfl
          · exact ih h1 (h ▸ List.mem_cons_self _ _) hc
        · exact ih p (h ▸ List.mem_cons_of_mem _ hp)

/-- Splitting a list that does not contain the separator yields the singleton. -/
theorem splitCL_of_not_mem (c : Char) (l : List Char) (h : c ∉ l) :
    splitCL c l = [l] := by
  induction l with
  | nil => rfl
  | cons x xs ih =>
    have hx : x ≠ c := fun hx => h (hx ▸ List.mem_cons_self x xs)
    have hxs : c ∉ xs := fun hc => h (List.mem_cons_of_mem x hc)
    simp only [splitCL, if_neg hx, ih hxs]

/-- Splitting around one separator occurrence: the separator-free part before it
becomes the first token. -/
theorem splitCL_append (c : Char) (l₁ l₂ : List Char) (h : c ∉ l₁) :
    splitCL c (l₁ ++ c :: l₂) = l₁ :: splitCL c l₂ := by
  induction l₁ with
  | nil =>
    simp only [List.nil_append, splitCL, if_pos rfl]
    rcases hs : splitCL c l₂ with _ | ⟨h1, t1⟩
    · exact absurd hs (splitCL_ne_nil c l₂)
    · rfl
  | cons x xs ih =>
    have hx : x ≠ c := fun hx => h (hx ▸ List.mem_cons_self x xs)
    have hxs : c ∉ xs := fun hc => h (List.mem_cons_of_mem x hc)
    simp only [List.cons_append, splitCL, if_neg hx, List.append_eq, ih hxs]

/-! ## The analysis-design hierarchy

A Python nested dictionary value is either a string (a leaf, holding the full
sample name) or a dict mapping tokens to deeper values.  Dicts preserve
insertion order, so they are modelled as association lists where assignment to
a fresh key appends and assignment to an existing key updates the first entry
in place. -/

/-- A value in the analysis-design dictionary: a string leaf or a nested dict. -/
inductive Node where
  | leaf : String → Node
  | branch : List (String × Node) → Node
deriving Repr

mutual

/-- Boolean equality of nodes (deriving is unavailable for nested inductives). -/
def nodeBEq : Node → Node → Bool
  | .leaf s, .leaf t => s == t
  | .branch d, .branch e => dictBEq d e
  | _, _ => false

/-- Boolean equality of dicts. -/
def dictBEq : List (String × Node) → List (String × Node) → Bool
  | [], [] => true
  | (k1, v1) :: r1, (k2, v2) :: r2 => k1 == k2 && nodeBEq v1 v2 && dictBEq r1 r2
  | _, _ => false

end

mutual

theorem nodeBEq_iff : ∀ a b : Node, nodeBEq a b = true ↔ a = b
  | .leaf s, .leaf t => by simp [nodeBEq]
  | .leaf _, .branch _ => by simp [nodeBEq]
  | .branch _, .leaf _ => by simp [nodeBEq]
  | .branch d, .branch e => by
    simp [nodeBEq, dictBEq_iff d e]

theorem dictBEq_iff : ∀ d e : List (String × Node), dictBEq d e = true ↔ d = e
  | [], [] => by simp [dictBEq]
  | [], _ :: _ => by simp [dictBEq]
  | _ :: _, [] => by simp [dictBEq]
  | (k1, v1) :: r1, (k2, v2) :: r2 => by
    simp [dictBEq, nodeBEq_iff v1 v2, dictBEq_iff r1 r2, Prod.ext_iff, and_assoc]

end

instance : DecidableEq Node := fun a b => decidable_of_iff _ (nodeBEq_iff a b)

instance {ε α : Type} [DecidableEq ε] [DecidableEq α] : DecidableEq (Except ε α)
  | .error e1, .error e2 => decidable_of_iff (e1 = e2) (by simp)
  | .error _, .ok _ => .isFalse (fun h => Except.noConfusion h)
  | .ok _, .error _ => .isFalse (fun h => Except.noConfusion h)
  | .ok a, .ok b => decidable_of_iff (a = b) (by simp)

/-- A Python dict from token to node, in insertion order. -/
abbrev Dict := List (String × Node)

/-- Python `d[k]` lookup (`None` for a missing key). -/
def dictGet (d : Dict) (k : String) : Option Node :=
  match d with
  | [] => none
  | (k1, v) :: rest => if k1 = k then some v else dictGet rest k

/-- Python `d[k] = v`: update the existing entry in place, else append. -/
def dictSet (d : Dict) (k : String) (v : Node) : Dict :=
  match d with
  | [] => [(k, v)]
  | (k1, v1) :: rest => if k1 = k then (k1, v) :: rest else (k1, v1) :: dictSet rest k v

/-- `SpectroReader.dictizeString`, on the underscore-token list of the name.

The source recurses with `parts = string.split('_', 1)`; splitting off one
token at a time traverses exactly the tokens of the full split, so the
embedding recurses on that token list.  Error cases raise in Python:
* final token already present (`dictionary[parts[0]] += 1` adds `1` to a `str`
  or a `dict`): `TypeError`;
* descending into an existing leaf (`branch` is a `str`, and the recursive call
  indexes or assigns into it): `TypeError`/`AttributeError`.

Python mutates `dictionary` in place; since every raised error aborts the
whole enclosing read, the `Except`-style embedding of the final dictionary is
faithful for all observable outcomes. -/
def dictizeP : List String → String → Dict → Except String Dict
  | [], _, _ => .error "unreachable: str.split never returns an empty list"
  | [t], fv, d =>
    match dictGet d t with
    | some _ => .error "TypeError"
    | none => .ok (dictSet d t (.leaf fv))
  | t :: u :: rest, fv, d =>
    match dictGet d t with
    | some (.leaf _) => .error "TypeError"
    | some (.branch b) =>
      match dictizeP (u :: rest) fv b with
      | .error e => .error e
      | .ok b2 => .ok (dictSet d t (.branch b2))
    | none =>
      match dictizeP (u :: rest) fv [] with
      | .error e => .error e
      | .ok b2 => .ok (dictSet d t (.branch b2))

/-- `SpectroReader.dictizeString(string, final_value, dictionary)`. -/
def dictizeString (s fv : String) (d : Dict) : Except String Dict :=
  dictizeP (pySplit '_' s) fv d

/-- The analysis-design dictionary built by inserting each name in turn with
`dictizeString(name, name, analysis_design)` (as `format_spektrocols` does for
each processed column), starting from `d`. -/
def buildDesignFrom (d : Dict) : List String → Except String Dict
  | [] => .ok d
  | n :: rest =>
    match dictizeString n n d with
    | .error e => .error e
    | .ok d2 => buildDesignFrom d2 rest

/-- The analysis-design dictionary built by `format_spektrocols`, which calls
`dictizeString(new_col, new_col, analysis_design)` for each processed column,
starting from the empty dict. -/
def buildDesign (names : List String) : Except String Dict :=
  buildDesignFrom [] names

/-- `helpers.Utils.fill_dict(d, s, s_split)`, on the token list `s_split`
(initially `s.split("_")`).

* With more than one token left it recurses into `d[s_split[0]]`; the
  `defaultdict` factory autovivifies a fresh branch for a missing key, and if
  the existing entry is a string leaf the recursive call raises a `TypeError`
  (string indexing/assignment).
* With one token left it assigns `d[s_split[0]] = s` unconditionally, silently
  overwriting an existing leaf or branch. -/
def fillD : List String → String → Dict → Except String Dict
  | [], _, _ => .error "unreachable: str.split never returns an empty list"
  | [t], s, d => .ok (dictSet d t (.leaf s))
  | t :: u :: rest, s, d =>
    match dictGet d t with
    | some (.leaf _) => .error "TypeError"
    | some (.branch b) =>
      match fillD (u :: rest) s b with
      | .error e => .error e
      | .ok b2 => .ok (dictSet d t (.branch b2))
    | none =>
      match fillD (u :: rest) s [] with
      | .error e => .error e
      | .ok b2 => .ok (dictSet d t (.branch b2))

/-- `helpers.Utils.get_analysis_design(names)`: fold `fill_dict` over the names
starting from an empty (recursive-default) dict.  `default_to_regular` only
converts `defaultdict` to `dict` and is structurally the identity. -/
def getAnalysisDesignFrom (d : Dict) : List String → Except String Dict
  | [] => .ok d
  | n :: rest =>
    match fillD (pySplit '_' n) n d with
    | .error e => .error e
    | .ok d2 => getAnalysisDesignFrom d2 rest

/-- `helpers.Utils.get_analysis_design(names)` proper. -/
def getAnalysisDesign (names : List String) : Except String Dict :=
  getAnalysisDesignFrom [] names

mutual

/-- All `(token path, leaf value)` pairs of a node. -/
def leafPathsN : Node → List (List String × String)
  | .leaf s => [([], s)]
  | .branch d => leafPathsD d

/-- All `(token path, leaf value)` pairs of a dict, in entry order. -/
def leafPathsD : List (String × Node) → List (List String × String)
  | [] => []
  | (k, n) :: rest => (leafPathsN n).map (fun p => (k :: p.1, p.2)) ++ leafPathsD rest

end

example : getAnalysisDesign ["A_B", "A"] = .ok [("A", .leaf "A")] := by decide

example : getAnalysisDesign ["A", "A_B"] = .error "TypeError" := by decide

example :
    buildDesign ["A_B", "C_D"] =
      .ok [("A", .branch [("B", .leaf "A_B")]), ("C", .branch [("D", .leaf "C_D")])] := by
  decide

example : buildDesign ["A_B", "A"] = .error "TypeError" := by decide

example : buildDesign ["A", "A_B"] = .error "TypeError" := by decide

/-! ## `SpectroReader.format_double_indx` (the duplicate-index resolver) -/

/-- `indx[indx.duplicated()]`: the entries marked by pandas `duplicated()`,
i.e. every occurrence that already appeared earlier (`seen` is the prefix
processed so far). -/
def duplicatedRows : List String → List String → List String
  | [], _ => []
  | x :: xs, seen => (if x ∈ seen then [x] else []) ++ duplicatedRows xs (seen ++ [x])

/-- `doubled_indx = set([str(ind) for ind in indx[indx.duplicated()]])`,
as a list whose membership is the Python set membership.  The entries are
already strings, so `str` is the identity. -/
def doubledSet (l : List String) : List String :=
  duplicatedRows l []

/-- Pointwise update of the `defaultdict` counter `cnt` at key `x`. -/
def bump (cnt : String → Nat) (x : String) : String → Nat :=
  fun y => if y = x then cnt x + 1 else cnt y

/-- The renaming pass of `format_double_indx`: `cnt = defaultdict(lambda: 1)`,
and every index in the duplicate set is renamed to `ind + "_" + str(cnt[ind])`
with a post-increment of its counter. -/
def fdiGo (dbl : List String) : List String → (String → Nat) → List String
  | [], _ => []
  | x :: xs, cnt =>
    if x ∈ dbl then (x ++ "_" ++ toString (cnt x)) :: fdiGo dbl xs (bump cnt x)
    else x :: fdiGo dbl xs cnt

/-- `SpectroReader.format_double_indx(indx)`: rename duplicate indices
`dupl, dupl ↦ dupl_1, dupl_2`.  The pandas Series is modelled as the list of
its (string) entries. -/
def format_double_indx (indx : List String) : List String :=
  fdiGo (doubledSet indx) indx (fun _ => 1)

/-- Modelled from the spec (§4.4 `DuplicateIndexResolver.resolve`): one pass in
original order; a value occurring more than once gets `_<k>` appended, where
`k` is the 1-based running counter private to that value (the number of its
occurrences among the first `i+1` positions); other values pass through. -/
def specResolveGo (full : List String) : List String → List String → List String
  | _, [] => []
  | pre, x :: xs =>
    (if 2 ≤ full.count x then x ++ "_" ++ toString (pre.count x + 1) else x)
      :: specResolveGo full (pre ++ [x]) xs

/-- Modelled from the spec: the whole-list duplicate-index resolver. -/
def specResolve (l : List String) : List String :=
  specResolveGo l [] l

theorem mem_duplicatedRows (v : String) :
    ∀ (l seen : List String),
      v ∈ duplicatedRows l seen ↔ (v ∈ seen ∧ v ∈ l) ∨ 2 ≤ l.count v := by
  intro l
  induction l with
  | nil => intro seen; simp [duplicatedRows]
  | cons x xs ih =>
    intro seen
    simp only [duplicatedRows]
    constructor
    · intro h
      rcases List.mem_append.mp h with h1 | h2
      · have hx : x ∈ seen ∧ v = x := by
          by_cases hs : x ∈ seen
          · rw [if_pos hs] at h1
            exact ⟨hs, List.mem_singleton.mp h1⟩
          · rw [if_neg hs] at h1
            cases h1
        exact Or.inl ⟨hx.2 ▸ hx.1, hx.2 ▸ List.mem_cons_self x xs⟩
      · rcases (ih (seen ++ [x])).mp h2 with ⟨hseen, hmem⟩ | hcnt
        · rcases List.mem_append.mp hseen with hs | hsx
          · exact Or.inl ⟨hs, List.mem_cons_of_mem x hmem⟩
          · have hvx : v = x := List.mem_singleton.mp hsx
            subst hvx
            have h1 : 1 ≤ xs.count v := List.one_le_count_iff.mpr hmem
            right
            rw [List.count_cons_self]
            omega
        · right
          calc 2 ≤ xs.count v := hcnt
            _ ≤ (x :: xs).count v := List.count_le_count_cons v x xs
    · intro h
      rcases h with ⟨hseen, hmem⟩ | hcnt
      · rcases List.mem_cons.mp hmem with hvx | hvxs
        · subst hvx
          apply List.mem_append.mpr
          left
          rw [if_pos hseen]
          exact List.mem_singleton.mpr rfl
        · apply List.mem_append.mpr
          right
          exact (ih (seen ++ [x])).mpr (Or.inl ⟨List.mem_append.mpr (Or.inl hseen), hvxs⟩)
      · apply List.mem_append.mpr
        right
        apply (ih (seen ++ [x])).mpr
        by_cases hvx : v = x
        · subst hvx
          rw [List.count_cons_self] at hcnt
          by_cases h2 : 2 ≤ xs.count v
          · exact Or.inr h2
          · have h1 : 1 ≤ xs.count v := by omega
            exact Or.inl ⟨List.mem_append.mpr (Or.inr (List.mem_singleton.mpr rfl)),
              List.one_le_count_iff.mp h1⟩
        · rw [List.count_cons_of_ne hvx] at hcnt
          exact Or.inr hcnt

theorem mem_doubledSet (v : String) (l : List String) :
    v ∈ doubledSet l ↔ 2 ≤ l.count v := by
  simp [doubledSet, mem_duplicatedRows]

theorem fdiGo_eq_specResolveGo (full : List String) :
    ∀ (rest pre : List String) (cnt : String → Nat),
      (∀ y, 2 ≤ full.count y → cnt y = pre.count y + 1) →
      fdiGo (doubledSet full) rest cnt = specResolveGo full pre rest := by
  intro rest
  induction rest with
  | nil => intro pre cnt _; rfl
  | cons x xs ih =>
    intro pre cnt hinv
    simp only [fdiGo, specResolveGo]
    by_cases hx : 2 ≤ full.count x
    · rw [if_pos ((mem_doubledSet x full).mpr hx), if_pos hx, hinv x hx]
      congr 1
      refine ih (pre ++ [x]) (bump cnt x) ?_
      intro y hy
      by_cases hyx : y = x
      · subst hyx
        simp [bump, hinv y hy, List.count_append]
      · simp [bump, hyx, hinv y hy, List.count_append,
          List.count_eq_zero.mpr (by simp [hyx] : y ∉ [x])]
    · rw [if_neg (fun hm => hx ((mem_doubledSet x full).mp hm)), if_neg hx]
      congr 1
      refine ih (pre ++ [x]) cnt ?_
      intro y hy
      have hyx : y ≠ x := fun h => hx (h ▸ hy)
      simp [hinv y hy, List.count_append,
        List.count_eq_zero.mpr (by simp [hyx] : y ∉ [x])]

example : format_double_indx ["A", "B", "A", "C", "A"] = ["A_1", "B", "A_2", "C", "A_3"] := by
  decide

example : format_double_indx ["A", "A", "A_1"] = ["A_1", "A_2", "A_1"] := by decide

/-! ## `SpectroReader.format_spektrocols` (the column-name normalizer) -/

/-- Number of underscore-delimited tokens of a normalized name. -/
def arity (s : String) : Nat :=
  (pySplit '_' s).length

/-- The raw-identifier extraction of `format_spektrocols` for one column:
`cur_col = col.split(" ")[1]` (an `IndexError` when the header has no space),
then `cur_col.split(".")[0]`, then `split("_")`. -/
def spektroTokens (col : String) : Except String (List String) :=
  match pySplit ' ' col with
  | _ :: c1 :: _ => .ok (pySplit '_' ((pySplit '.' c1).headD ""))
  | _ => .error "IndexError"

/-- The per-column reassembly of `format_spektrocols` on the token list
`cur_col`, with `last` the `new_col` left over from the previous loop
iteration.  Mirrors the source branch for branch:

* one token: `cur_col[1]` raises `IndexError`;
* two tokens: `cur_col[0] + "_" + cur_col[1]`;
* three tokens: `cur_col[0] + "_" + cur_col[1] + "_" + cur_col[2]`;
* otherwise the first two tokens are dropped and the remainder is reassembled
  when its length is 3, 4 (with the `"rep" in cur_col[3]` disambiguation) or 5;
  for any other remainder length no branch assigns `new_col`, so Python reuses
  the previous iteration's value (or raises `NameError` on the first column). -/
def formatSpektroCol (cur : List String) (last : Option String) : Except String String :=
  match cur with
  | [] => .error "IndexError"
  | [_] => .error "IndexError"
  | [t0, t1] => .ok (t0 ++ "_" ++ t1)
  | [t0, t1, t2] => .ok (t0 ++ "_" ++ t1 ++ "_" ++ t2)
  | _ :: _ :: rest =>
    match rest with
    | [a, b, c] => .ok (a ++ "_" ++ b ++ "_" ++ c)
    | [a, b, c, d] =>
      if pyIn "rep" d then .ok (a ++ "_" ++ b ++ "_" ++ (c ++ d))
      else .ok (a ++ b ++ "_" ++ c ++ "_" ++ d)
    | [a, b, c, d, e] => .ok (a ++ b ++ "_" ++ c ++ "_" ++ (d ++ e))
    | _ =>
      match last with
      | some prev => .ok prev
      | none => .error "NameError"

/-- The loop of `format_spektrocols`: process each column, append the result to
`processed_cols` and insert it into the analysis design via `dictizeString`. -/
def formatSpektroColsGo :
    List String → List String → Dict → Option String → Except String (List String × Dict)
  | [], acc, design, _ => .ok (acc, design)
  | col :: rest, acc, design, last =>
    match spektroTokens col with
    | .error e => .error e
    | .ok cur =>
      match formatSpektroCol cur last with
      | .error e => .error e
      | .ok newCol =>
        match dictizeString newCol newCol design with
        | .error e => .error e
        | .ok design2 => formatSpektroColsGo rest (acc ++ [newCol]) design2 (some newCol)

/-- `SpectroReader.format_spektrocols(cols)`: returns
`(processed_cols, analysis_design)`. -/
def format_spektrocols (cols : List String) : Except String (List String × Dict) :=
  formatSpektroColsGo cols [] [] none

example :
    format_spektrocols ["x A_B.Quantity", "x C_D_E.Quantity"] =
      .ok (["A_B", "C_D_E"],
        [("A", .branch [("B", .leaf "A_B")]),
         ("C", .branch [("D", .branch [("E", .leaf "C_D_E")])])]) := by
  decide

example : format_spektrocols ["x A_B_C_D.Quantity"] = .error "NameError" := by decide

example :
    format_spektrocols ["x A_B_C.Quantity", "x P_Q_R_S.Quantity"] = .error "TypeError" := by
  decide

/-! ## `SpectroReader.preprocess_proteins`: missingness masking (lines 104-114)

A raw `.Quantity` cell is numeric, the vendor sentinel string `"Filtered"`, or
missing (`NaN`); a raw `.IsIdentified` cell is a boolean, one of the strings
`"True"`/`"False"`/`"Filtered"`, or missing. -/

/-- A raw quantity cell. -/
inductive CellQ where
  | num : ℚ → CellQ
  | filtered : CellQ
  | nan : CellQ
deriving DecidableEq, Repr

/-- A raw identification-flag cell. -/
inductive FlagV where
  | btrue | bfalse | strue | sfalse | sfiltered | fnan
deriving DecidableEq, Repr

/-- A flag after the `replace` cleanup: boolean or still missing. -/
inductive FlagB where
  | bt | bf | bn
deriving DecidableEq, Repr

/-- An assembled matrix cell: numeric or `NaN`. -/
inductive OutV where
  | onum : ℚ → OutV
  | onan : OutV
deriving DecidableEq, Repr

/-- Lines 104-105: wherever the `.Quantity` cell is `NaN`, the companion
`.IsIdentified` cell is set to `False` (before `missing_map` is extracted). -/
def flagPrepass (q : CellQ) (f : FlagV) : FlagV :=
  match q with
  | .nan => .bfalse
  | _ => f

/-- Line 107: `missing_map = df.filter(regex=(".IsIdentified")).replace({"Filtered": False,
"True": True, "False": False})`; booleans and `NaN` pass through. -/
def flagClean : FlagV → FlagB
  | .btrue => .bt
  | .strue => .bt
  | .bfalse => .bf
  | .sfalse => .bf
  | .sfiltered => .bf
  | .fnan => .bn

/-- Line 109: `df.replace({"Filtered": float(0)}).fillna(0)` on a quantity cell. -/
def quantClean : CellQ → ℚ
  | .num q => q
  | .filtered => 0
  | .nan => 0

/-- Line 114: elementwise `df.values * missing_map.values`; a float times
`True`/`False` is the float or `0.0`, a float times `NaN` is `NaN`. -/
def maskMul (q : ℚ) : FlagB → OutV
  | .bt => .onum q
  | .bf => .onum 0
  | .bn => .onan

/-- The per-cell value pipeline of `preprocess_proteins` (lines 104-114): the
flag pre-pass, the `missing_map` cleanup, the quantity cleanup, and — only when
`use_imputed` is `False` — the missingness mask. -/
def preprocessCell (useImputed : Bool) (q : CellQ) (f : FlagV) : OutV :=
  let fb := flagClean (flagPrepass q f)
  let qc := quantClean q
  if useImputed then .onum qc else maskMul qc fb

/-! ## `SpectroReader.preprocess_df`: expansion of `;`-joined rows (lines 213-229)

A table cell is a string or a number; the identifier column
`PG.ProteinGroups` is column 0 (the reader only calls `preprocess_df` after
checking `df.columns[0] == 'PG.ProteinGroups'`). -/

/-- A raw table cell. -/
inductive Cell where
  | cs : String → Cell
  | cn : ℚ → Cell
deriving DecidableEq, Repr

/-- `";" in df.loc[row, "PG.ProteinGroups"]`: a `TypeError` when the
identifier cell is not a string, an `IndexError`-like failure on a row with no
cells. -/
def isDuplRow (r : List Cell) : Except String Bool :=
  match r.head? with
  | some (.cs s) => .ok (pyIn ";" s)
  | some (.cn _) => .error "TypeError"
  | none => .error "IndexError"

/-- One cell of the `i`-th expansion row: a string cell containing `;` is
replaced by `cell.split(';')[i]` (an `IndexError` when it has at most `i`
parts); every other cell is copied unchanged. -/
def splitCellAt (i : Nat) : Cell → Except String Cell
  | .cs s =>
    if pyIn ";" s then
      match (pySplit ';' s).get? i with
      | some p => .ok (.cs p)
      | none => .error "IndexError"
    else .ok (.cs s)
  | .cn q => .ok (.cn q)

/-- Lines 216-227: for a row whose identifier holds `N` `;`-joined parts,
build `N` new rows, the `i`-th taking part `i` of every `;`-containing string
cell. -/
def expandRow (r : List Cell) : Except String (List (List Cell)) :=
  match r.head? with
  | some (.cs s) => (List.range (pySplit ';' s).length).mapM (fun i => r.mapM (splitCellAt i))
  | _ => .error "TypeError"

/-- The row-expansion step of `preprocess_df` (lines 213-229): find the rows
whose identifier contains `;`, append their expansions to the end of the
table, then drop the original combined rows (`df.drop(labels=dupl_row)`) and
reindex. -/
def preprocessDfExpand (rows : List (List Cell)) : Except String (List (List Cell)) :=
  match rows.mapM isDuplRow with
  | .error e => .error e
  | .ok flags =>
    let tagged := rows.zip flags
    let dupl := tagged.filterMap (fun p => if p.2 then some p.1 else none)
    let kept := tagged.filterMap (fun p => if p.2 then none else some p.1)
    match dupl.mapM expandRow with
    | .error e => .error e
    | .ok expansions => .ok (kept ++ expansions.flatten)

example :
    preprocessDfExpand [[.cs "A;B", .cs "x;y", .cn 7]] =
      .ok [[.cs "A", .cs "x", .cn 7], [.cs "B", .cs "y", .cn 7]] := by
  decide

/-! ## The delimiter-sniffing loop (`__init__` lines 55-64 and
`preprocess_proteins` lines 88-97)

A parsed table is modelled by its header row (the list of column names);
`df.shape[1]` is its length.  `f sep` is the outcome of
`pd.read_csv(file_dir, sep=sep)` (`error` for a raised exception), and `pp`
is `preprocess_df`, which preserves the column list's identity for the
claim-relevant shape checks but is kept abstract here. -/

/-- The fixed delimiter priority list `[",", "\t", ";"]` from the source. -/
def sniffSeps : List String := [",", "\t", ";"]

/-- One iteration body: try to parse; on success run `preprocess_df` when the
first column is `PG.ProteinGroups`; on an exception keep the previous `df`
(the `except:` branch only prints a warning). -/
def sniffStep (f : String → Except Unit (List String)) (pp : List String → List String)
    (df : List String) (sep : String) : List String :=
  match f sep with
  | .ok t => if t.headD "" = "PG.ProteinGroups" then pp t else t
  | .error _ => df

/-- The sniffing loop: after each attempt, `break` as soon as
`df.shape[1] > 1`; `df` starts as the empty `pd.DataFrame()`.  Returns the
final `df` and the separator that was accepted, if any. -/
def sniffLoop (f : String → Except Unit (List String)) (pp : List String → List String) :
    List String → List String → List String × Option String
  | [], df => (df, none)
  | sep :: rest, df =>
    let df1 := sniffStep f pp df sep
    if 1 < df1.length then (df1, some sep) else sniffLoop f pp rest df1

/-- The whole sniffing pass over the fixed separator list. -/
def sniffFile (f : String → Except Unit (List String)) (pp : List String → List String) :
    List String × Option String :=
  sniffLoop f pp sniffSeps []

/-! ## The `if self.format_double_indx:` guard (lines 25-26 and 116-117) -/

/-- A Python value as far as truthiness is concerned: a boolean, or a bound
method object (which is always truthy). -/
inductive PyVal where
  | pybool : Bool → PyVal
  | pymethod : PyVal
deriving DecidableEq, Repr

/-- Python truthiness. -/
def pyTruthy : PyVal → Bool
  | .pybool b => b
  | .pymethod => true

/-- Attribute lookup on a `SpectroReader` instance: the class attribute
`format_doubleindx` (line 26) holds the flag; any other looked-up name used
here — in particular `format_double_indx`, the name written in the guard at
line 116 — resolves to the bound method of that name. -/
def spectroGetAttr (format_doubleindx : Bool) (name : String) : PyVal :=
  if name = "format_doubleindx" then .pybool format_doubleindx else .pymethod

/-- Lines 116-117 of `preprocess_proteins`:
`if self.format_double_indx: use_index = self.format_double_indx(use_index)`.
The guard tests the attribute named `format_double_indx`. -/
def preprocessIndexStep (format_doubleindx : Bool) (useIndex : List String) : List String :=
  if pyTruthy (spectroGetAttr format_doubleindx "format_double_indx") then
    format_double_indx useIndex
  else useIndex

/-! ## Claim theorems -/

/-- **C10.** Every invocation of `preprocess_proteins` applies the
duplicate-index renaming to the row index unconditionally, regardless of the
value of the class attribute `format_doubleindx` (including its default
`False`): the guard `if self.format_double_indx:` tests the truthiness of the
bound method `format_double_indx`, which is always truthy in Python, so the
renaming branch is always taken. -/
theorem claim_C10 :
    ∀ (format_doubleindx : Bool) (useIndex : List String),
      preprocessIndexStep format_doubleindx useIndex = format_double_indx useIndex := by
  intro b idx
  rfl

/-- **C4 counterexample.** The claim "when `use_imputed` is `False` and the
companion identification flag at `(i,j)` is not true-like, the output value at
`(i,j)` equals 0" is false on the code: a missing (`NaN`) identification flag
over the present raw value `5` yields `NaN` (float times `NaN`), not `0`.
(The line 104-105 pre-pass only falsifies flags whose companion *quantity* is
`NaN`, so a `NaN` flag over a present value survives to the multiplication.) -/
theorem claim_C4_counterexample :
    preprocessCell false (.num 5) .fnan = .onan ∧ OutV.onan ≠ .onum 0 := by
  exact ⟨rfl, fun h => OutV.noConfusion h⟩

/-- **C4 amended.** In the assembled intensity matrix, per cell: with
`use_imputed = True` the *cleaned* raw value is preserved (numeric values
unchanged; the `"Filtered"` sentinel and `NaN` become `0`) for every flag
value.  With `use_imputed = False`: a true-like flag (`True`/`"True"`)
preserves the cleaned value, a false-like flag (`False`/`"False"`/
`"Filtered"`) forces the cell to `0`, a `NaN` raw value forces the cell to `0`
(its flag is first set to `False` by the pre-pass), but a `NaN` flag over a
non-missing raw value yields `NaN`, not `0`. -/
theorem claim_C4_amended :
    (∀ (q : CellQ) (f : FlagV), preprocessCell true q f = .onum (quantClean q)) ∧
    (∀ (x : ℚ), preprocessCell false (.num x) .btrue = .onum x) ∧
    (∀ (x : ℚ), preprocessCell false (.num x) .strue = .onum x) ∧
    (∀ (x : ℚ), preprocessCell false (.num x) .bfalse = .onum 0) ∧
    (∀ (x : ℚ), preprocessCell false (.num x) .sfalse = .onum 0) ∧
    (∀ (x : ℚ), preprocessCell false (.num x) .sfiltered = .onum 0) ∧
    (∀ (x : ℚ), preprocessCell false (.num x) .fnan = .onan) ∧
    (∀ (f : FlagV), preprocessCell false .nan f = .onum 0) ∧
    preprocessCell false .filtered .fnan = .onan := by
  refine ⟨fun q f => rfl, fun x => rfl, fun x => rfl, fun x => rfl, fun x => rfl,
    fun x => rfl, fun x => rfl, fun f => rfl, rfl⟩

/-- **C6.** The duplicate-index resolver `format_double_indx` maps
`["A","B","A","C","A"]` to exactly `["A_1","B","A_2","C","A_3"]`, and in
general it coincides with the spec-modelled resolver `specResolve`: the output
has the same length and positions, every value occurring more than once is
renamed by appending `_<k>` with a 1-based per-value counter in order of
occurrence, and every value occurring exactly once passes through unchanged. -/
theorem claim_C6 :
    (∀ l : List String, format_double_indx l = specResolve l) ∧
    (∀ l : List String, (format_double_indx l).length = l.length) ∧
    format_double_indx ["A", "B", "A", "C", "A"] = ["A_1", "B", "A_2", "C", "A_3"] := by
  have hmain : ∀ l : List String, format_double_indx l = specResolve l := by
    intro l
    exact fdiGo_eq_specResolveGo l l [] (fun _ => 1) (fun y _ => by simp)
  have hlen : ∀ (full rest pre : List String), (specResolveGo full pre rest).length = rest.length := by
    intro full rest
    induction rest with
    | nil => intro pre; rfl
    | cons x xs ih => intro pre; simp only [specResolveGo, List.length_cons, ih]
  refine ⟨hmain, ?_, by decide⟩
  intro l
  rw [hmain l]
  exact hlen l l []

theorem pySplit_not_mem (c : Char) (s : String) : ∀ p ∈ pySplit c s, c ∉ p.data := by
  intro p hp
  rcases List.mem_map.mp hp with ⟨l, hl, rfl⟩
  exact splitCL_not_mem c s.data l hl

/-- A successful `spektroTokens` result is the underscore-split of some string,
hence all its parts are underscore-free. -/
theorem spektroTokens_eq (col : String) (cur : List String)
    (h : spektroTokens col = .ok cur) : ∃ s, cur = pySplit '_' s := by
  unfold spektroTokens at h
  split at h
  · exact ⟨_, (Except.ok.inj h).symm⟩
  · exact Except.noConfusion h

theorem underscore_data : ("_" : String).data = ['_'] := rfl

theorem pySplit_join3 (a b c : String) (ha : '_' ∉ a.data) (hb : '_' ∉ b.data)
    (hc : '_' ∉ c.data) :
    pySplit '_' (a ++ "_" ++ b ++ "_" ++ c) = [a, b, c] := by
  have hdata : (a ++ "_" ++ b ++ "_" ++ c).data
      = a.data ++ '_' :: (b.data ++ '_' :: c.data) := by
    simp [String.data_append, underscore_data]
  unfold pySplit
  rw [hdata, splitCL_append '_' a.data _ ha, splitCL_append '_' b.data _ hb,
    splitCL_of_not_mem '_' c.data hc]
  rfl

/-- **C9.** For a raw sample identifier whose stripped identifier has six
underscore tokens — so that after dropping the two leading positional/file
markers the 4-token reassembly case of `format_spektrocols` applies — the
normalizer decides the reassembly by checking whether the last token contains
the literal substring `"rep"`: if it does, the last token is fused with its
neighboring token (output tokens `[a, b, c ++ d]`); otherwise it stands alone
as its own token in the normalized name (output tokens `[a ++ b, c, d]`). -/
theorem claim_C9 :
    ∀ (col : String) (cur : List String) (last : Option String) (t0 t1 a b c d : String),
      spektroTokens col = .ok cur →
      cur = [t0, t1, a, b, c, d] →
      (pyIn "rep" d = true →
        formatSpektroCol cur last = .ok (a ++ "_" ++ b ++ "_" ++ (c ++ d)) ∧
        pySplit '_' (a ++ "_" ++ b ++ "_" ++ (c ++ d)) = [a, b, c ++ d]) ∧
      (pyIn "rep" d = false →
        formatSpektroCol cur last = .ok (a ++ b ++ "_" ++ c ++ "_" ++ d) ∧
        pySplit '_' (a ++ b ++ "_" ++ c ++ "_" ++ d) = [a ++ b, c, d]) := by
  intro col cur last t0 t1 a b c d htok hcur
  subst hcur
  obtain ⟨s, hs⟩ := spektroTokens_eq col _ htok
  have hfree : ∀ p ∈ [t0, t1, a, b, c, d], '_' ∉ p.data := by
    rw [hs]
    exact pySplit_not_mem '_' s
  have hafree : '_' ∉ a.data := hfree a (by simp)
  have hbfree : '_' ∉ b.data := hfree b (by simp)
  have hcfree : '_' ∉ c.data := hfree c (by simp)
  have hdfree : '_' ∉ d.data := hfree d (by simp)
  have hcdfree : '_' ∉ (c ++ d).data := by
    rw [String.data_append]
    intro hmem
    rcases List.mem_append.mp hmem with hm | hm
    · exact hcfree hm
    · exact hdfree hm
  have habfree : '_' ∉ (a ++ b).data := by
    rw [String.data_append]
    intro hmem
    rcases List.mem_append.mp hmem with hm | hm
    · exact hafree hm
    · exact hbfree hm
  constructor
  · intro hrep
    refine ⟨?_, pySplit_join3 a b (c ++ d) hafree hbfree hcdfree⟩
    simp only [formatSpektroCol, hrep, if_true]
  · intro hrep
    refine ⟨?_, pySplit_join3 (a ++ b) c d habfree hcfree hdfree⟩
    simp [formatSpektroCol, hrep]

/-- **C9 witness.** The 6-token identifier `A_B_C_D_E_rep1` (from the raw
header `x A_B_C_D_E_rep1.Quantity`) takes the `"rep"` branch and fuses the
last two tokens; the hypothetical last token `E9` on the same header shape
would take the stand-alone branch. -/
theorem claim_C9_witness :
    formatSpektroCol ["A", "B", "C", "D", "E", "rep1"] none =
      .ok ("C" ++ "_" ++ "D" ++ "_" ++ ("E" ++ "rep1")) ∧
    pySplit '_' ("C" ++ "_" ++ "D" ++ "_" ++ ("E" ++ "rep1")) = ["C", "D", "E" ++ "rep1"] := by
  exact (claim_C9 "x A_B_C_D_E_rep1.Quantity" ["A", "B", "C", "D", "E", "rep1"] none
    "A" "B" "C" "D" "E" "rep1" (by decide) rfl).1 (by decide)

theorem formatSpektroColsGo_arity3 :
    ∀ (cols acc : List String) (design : Dict) (last : Option String)
      (names : List String) (dsn : Dict),
      (∀ col ∈ cols, ∃ cur, spektroTokens col = .ok cur ∧ cur.length = 3) →
      (∀ n ∈ acc, arity n = 3) →
      formatSpektroColsGo cols acc design last = .ok (names, dsn) →
      ∀ n ∈ names, arity n = 3 := by
  intro cols
  induction cols with
  | nil =>
    intro acc design last names dsn _ hacc hok
    simp only [formatSpektroColsGo] at hok
    have h := Except.ok.inj hok
    cases h
    exact hacc
  | cons col rest ih =>
    intro acc design last names dsn hcols hacc hok
    obtain ⟨cur, hcur, hlen⟩ := hcols col (List.mem_cons_self _ _)
    obtain ⟨a, b, c, rfl⟩ := List.length_eq_three.mp hlen
    have hfmt : formatSpektroCol [a, b, c] last = .ok (a ++ "_" ++ b ++ "_" ++ c) := rfl
    simp only [formatSpektroColsGo, hcur, hfmt] at hok
    rcases hdz : dictizeString (a ++ "_" ++ b ++ "_" ++ c) (a ++ "_" ++ b ++ "_" ++ c) design
      with e | design2
    · rw [hdz] at hok
      exact Except.noConfusion hok
    · rw [hdz] at hok
      refine ih (acc ++ [a ++ "_" ++ b ++ "_" ++ c]) design2 (some _) names dsn
        (fun col2 h2 => hcols col2 (List.mem_cons_of_mem _ h2)) ?_ hok
      intro n hn
      rcases List.mem_append.mp hn with h | h
      · exact hacc n h
      · have heq : n = a ++ "_" ++ b ++ "_" ++ c := List.mem_singleton.mp h
        subst heq
        obtain ⟨s, hs⟩ := spektroTokens_eq col _ hcur
        have hfree := pySplit_not_mem '_' s
        rw [← hs] at hfree
        unfold arity
        rw [pySplit_join3 a b c (hfree a (by simp)) (hfree b (by simp)) (hfree c (by simp))]
        rfl

/-- **C1 counterexample.** The claim "all normalized sample names have the
same number of underscore-delimited tokens, and otherwise the operation fails
fast with an 'inconsistent sample naming' error" is false on the code:
`format_spektrocols` maps the raw headers `x A_B.Quantity` (two raw tokens)
and `x C_D_E.Quantity` (three raw tokens) successfully — no error of any
kind — to the names `A_B` and `C_D_E`, which have 2 and 3 underscore tokens
respectively. -/
theorem claim_C1_counterexample :
    format_spektrocols ["x A_B.Quantity", "x C_D_E.Quantity"] =
      .ok (["A_B", "C_D_E"],
        [("A", .branch [("B", .leaf "A_B")]),
         ("C", .branch [("D", .branch [("E", .leaf "C_D_E")])])]) ∧
    arity "A_B" = 2 ∧ arity "C_D_E" = 3 := by
  refine ⟨by decide, by decide, by decide⟩

/-- **C1 amended.** `format_spektrocols` performs no equal-arity validation at
all and has no "inconsistent sample naming" failure path; mixed-arity raw
inputs silently yield mixed-arity normalized names.  The equal-arity guarantee
holds only per reassembly case: in particular, whenever every column's
stripped identifier splits into exactly 3 underscore tokens, every normalized
name in a successful result has exactly 3 underscore tokens. -/
theorem claim_C1_amended :
    ∀ (cols names : List String) (design : Dict),
      (∀ col ∈ cols, ∃ cur, spektroTokens col = .ok cur ∧ cur.length = 3) →
      format_spektrocols cols = .ok (names, design) →
      ∀ n ∈ names, arity n = 3 := by
  intro cols names design hcols hok
  exact formatSpektroColsGo_arity3 cols [] [] none names design hcols (by simp) hok

/-- **C1 amended, witness.** The single column `x A_B_C.Quantity` satisfies
the 3-token hypothesis, and the normalized name `A_B_C` indeed has arity 3. -/
theorem claim_C1_amended_witness :
    (∀ col ∈ ["x A_B_C.Quantity"], ∃ cur, spektroTokens col = .ok cur ∧ cur.length = 3) ∧
    arity "A_B_C" = 3 := by
  have h1 : ∀ col ∈ ["x A_B_C.Quantity"],
      ∃ cur, spektroTokens col = .ok cur ∧ cur.length = 3 := by
    intro col hc
    rw [List.mem_singleton] at hc
    subst hc
    exact ⟨["A", "B", "C"], by decide, rfl⟩
  refine ⟨h1, ?_⟩
  exact claim_C1_amended ["x A_B_C.Quantity"] ["A_B_C"]
    [("A", .branch [("B", .branch [("C", .leaf "A_B_C")])])] h1 (by decide) "A_B_C" (by simp)

/-- The `df` state after the first `k` separator attempts. -/
def sniffState (f : String → Except Unit (List String)) (pp : List String → List String)
    (df0 : List String) (seps : List String) (k : Nat) : List String :=
  (seps.take k).foldl (sniffStep f pp) df0

theorem sniffLoop_first (f : String → Except Unit (List String))
    (pp : List String → List String) :
    ∀ (seps : List String) (df0 d : List String) (s : String),
      sniffLoop f pp seps df0 = (d, some s) →
      ∃ i, i < seps.length ∧ seps.get? i = some s ∧
        d = sniffState f pp df0 seps (i + 1) ∧ 1 < d.length ∧
        ∀ j < i, (sniffState f pp df0 seps (j + 1)).length ≤ 1 := by
  intro seps
  induction seps with
  | nil =>
    intro df0 d s h
    simp [sniffLoop] at h
  | cons sep rest ih =>
    intro df0 d s h
    simp only [sniffLoop] at h
    by_cases hacc : 1 < (sniffStep f pp df0 sep).length
    · rw [if_pos hacc] at h
      injection h with h1 h2
      obtain rfl := Option.some.inj h2
      refine ⟨0, by simp, by simp, ?_, ?_, fun j hj => absurd hj (by omega)⟩
      · rw [← h1]
        rfl
      · rw [← h1]
        exact hacc
    · rw [if_neg hacc] at h
      obtain ⟨i, hi, hget, hd, hlen, hprev⟩ := ih (sniffStep f pp df0 sep) d s h
      have hstate : ∀ k, sniffState f pp df0 (sep :: rest) (k + 1)
          = sniffState f pp (sniffStep f pp df0 sep) rest k := fun k => rfl
      refine ⟨i + 1, by simpa using Nat.succ_lt_succ hi, by simpa using hget, ?_, hlen, ?_⟩
      · rw [hstate]
        exact hd
      · intro j hj
        cases j with
        | zero =>
          have h0 : sniffState f pp df0 (sep :: rest) 1 = sniffStep f pp df0 sep := rfl
          rw [h0]
          omega
        | succ j2 =>
          rw [hstate (j2 + 1)]
          exact hprev j2 (by omega)

/-- **C8.** The table sniffer tries the field delimiters in the fixed priority
order comma, tab, semicolon; whenever a separator is accepted, the resulting
table has more than one column (hence satisfies "column count exceeds 1 or the
first-column header validates"), and the accepted separator is the *first* one
in that order whose attempt produced more than one column — every earlier
attempt left at most one column, and iteration stopped at the accepted one. -/
theorem claim_C8 :
    ∀ (f : String → Except Unit (List String)) (pp : List String → List String)
      (d : List String) (s : String),
      sniffFile f pp = (d, some s) →
      sniffSeps = [",", "\t", ";"] ∧
      ∃ i, i < 3 ∧ sniffSeps.get? i = some s ∧
        d = sniffState f pp [] sniffSeps (i + 1) ∧
        1 < d.length ∧ (1 < d.length ∨ d.headD "" = "PG.ProteinGroups") ∧
        ∀ j < i, (sniffState f pp [] sniffSeps (j + 1)).length ≤ 1 := by
  intro f pp d s h
  obtain ⟨i, hi, hget, hd, hlen, hprev⟩ := sniffLoop_first f pp sniffSeps [] d s h
  exact ⟨rfl, i, by simpa [sniffSeps] using hi, hget, hd, hlen, Or.inl hlen, hprev⟩

/-- **C8 witness.** A file that raises on comma and parses with two columns on
tab is accepted at the tab separator. -/
theorem claim_C8_witness :
    sniffFile (fun sep => if sep = "\t" then .ok ["PG.ProteinGroups", "B"] else .error ())
        (fun t => t) = (["PG.ProteinGroups", "B"], some "\t") ∧
    (sniffSeps = [",", "\t", ";"] ∧
      ∃ i, i < 3 ∧ sniffSeps.get? i = some "\t" ∧
        ["PG.ProteinGroups", "B"] =
          sniffState (fun sep => if sep = "\t" then .ok ["PG.ProteinGroups", "B"] else .error ())
            (fun t => t) [] sniffSeps (i + 1) ∧
        1 < (["PG.ProteinGroups", "B"] : List String).length ∧
        (1 < (["PG.ProteinGroups", "B"] : List String).length ∨
          (["PG.ProteinGroups", "B"] : List String).headD "" = "PG.ProteinGroups") ∧
        ∀ j < i,
          (sniffState (fun sep => if sep = "\t" then .ok ["PG.ProteinGroups", "B"] else .error ())
            (fun t => t) [] sniffSeps (j + 1)).length ≤ 1) := by
  exact ⟨by decide, claim_C8 _ _ _ _ (by decide)⟩

theorem mapM_ok_of_forall {α β : Type} (g : α → Except String β) (h : α → β) :
    ∀ l : List α, (∀ a ∈ l, g a = .ok (h a)) → l.mapM g = .ok (l.map h) := by
  intro l
  induction l with
  | nil => intro _; rfl
  | cons x xs ih =>
    intro H
    simp only [List.mapM_cons, H x (List.mem_cons_self _ _),
      ih (fun a ha => H a (List.mem_cons_of_mem _ ha)), List.map_cons]
    rfl

/-- The total description of one cell of the `i`-th expansion row: the `i`-th
`;`-part of a `;`-containing string cell, every other cell unchanged. -/
def takeCellD (i : Nat) : Cell → Cell
  | .cs u => if pyIn ";" u then .cs (((pySplit ';' u).get? i).getD "") else .cs u
  | .cn q => .cn q

theorem splitCellAt_eq_takeCellD (i N : Nat) (hi : i < N) (cell : Cell)
    (hlen : ∀ u, cell = Cell.cs u → pyIn ";" u = true → N ≤ (pySplit ';' u).length) :
    splitCellAt i cell = .ok (takeCellD i cell) := by
  cases cell with
  | cn q => rfl
  | cs u =>
    by_cases hsemi : pyIn ";" u = true
    · have hN := hlen u rfl hsemi
      have hi2 : i < (pySplit ';' u).length := lt_of_lt_of_le hi hN
      have hget : (pySplit ';' u)[i]? = some ((pySplit ';' u)[i]) :=
        List.getElem?_eq_getElem hi2
      simp [splitCellAt, takeCellD, hsemi, hget]
    · simp [splitCellAt, takeCellD, hsemi]

theorem exceptBind_ok {α β : Type} (a : α) (g : α → Except String β) :
    (Except.ok a >>= g) = g a := rfl

theorem exceptBind_error {α β : Type} (e : String) (g : α → Except String β) :
    ((Except.error e : Except String α) >>= g) = .error e := rfl

theorem exceptPure {α : Type} (a : α) : (pure a : Except String α) = .ok a := rfl

/-- **C5 counterexample.** For the one-row table `[["A;B", "x;y", 7]]` the
identifier has 2 parts and the expansion produces 2 rows, but the claim that
each produced row is "identical to the original row in every other cell
value" is false: the second cell `"x;y"` is split as well (output `"x"`,
not `"x;y"`). -/
theorem claim_C5_counterexample :
    preprocessDfExpand [[.cs "A;B", .cs "x;y", .cn 7]] =
      .ok [[.cs "A", .cs "x", .cn 7], [.cs "B", .cs "y", .cn 7]] ∧
    ([Cell.cs "A", Cell.cs "x", Cell.cn 7].get? 1 ≠ some (Cell.cs "x;y")) := by
  exact ⟨by decide, by decide⟩

/-- **C5 amended.** For a table consisting of exactly one row whose identifier
field (column 0) is a `;`-joined string of `N` parts, and in which every
`;`-containing string cell has at least `N` parts, the row-expansion step
produces exactly `N` output rows; the `i`-th output row equals the original
row with every `;`-containing string cell replaced by its `i`-th `;`-part
(cells without `;` are copied unchanged, but `;`-containing companion cells
are *also* split, not copied), its identifier is the `i`-th part, and the
original combined-identifier row is dropped. -/
theorem claim_C5_amended :
    ∀ (r : List Cell) (s : String) (N : Nat),
      r.head? = some (.cs s) →
      pyIn ";" s = true →
      (pySplit ';' s).length = N →
      (∀ u, Cell.cs u ∈ r → pyIn ";" u = true → N ≤ (pySplit ';' u).length) →
      preprocessDfExpand [r] = .ok ((List.range N).map (fun i => r.map (takeCellD i))) ∧
      ((List.range N).map (fun i => r.map (takeCellD i))).length = N ∧
      (∀ i, i < N →
        (r.map (takeCellD i)).head? = some (.cs (((pySplit ';' s)[i]?).getD ""))) := by
  intro r s N hid hsemi hN hparts
  have hrow : ∀ i, i < N → r.mapM (splitCellAt i) = .ok (r.map (takeCellD i)) := by
    intro i hi
    apply mapM_ok_of_forall
    intro cell hcell
    apply splitCellAt_eq_takeCellD i N hi
    intro u hu hsm
    exact hparts u (hu ▸ hcell) hsm
  have hexp : expandRow r = .ok ((List.range N).map (fun i => r.map (takeCellD i))) := by
    simp only [expandRow, hid, hN]
    exact mapM_ok_of_forall _ _ _ (fun i hi => hrow i (List.mem_range.mp hi))
  have hdupl : isDuplRow r = .ok true := by
    simp only [isDuplRow, hid, hsemi]
  have hflags : ([r] : List (List Cell)).mapM isDuplRow = .ok [true] := by
    simp only [List.mapM_cons, List.mapM_nil, hdupl, exceptBind_ok, exceptPure]
  have hexps : ([r] : List (List Cell)).mapM expandRow
      = .ok [(List.range N).map (fun i => r.map (takeCellD i))] := by
    simp only [List.mapM_cons, List.mapM_nil, hexp, exceptBind_ok, exceptPure]
  refine ⟨?_, by simp, ?_⟩
  · simp only [preprocessDfExpand, hflags]
    show (match ([r] : List (List Cell)).mapM expandRow with
        | Except.error e => (Except.error e : Except String (List (List Cell)))
        | Except.ok expansions => Except.ok (([] : List (List Cell)) ++ expansions.flatten))
      = Except.ok ((List.range N).map (fun i => r.map (takeCellD i)))
    rw [hexps]
    simp
  · intro i hi
    obtain ⟨cell, tl, rfl⟩ : ∃ c tl, r = c :: tl := by
      cases r with
      | nil => simp at hid
      | cons c tl => exact ⟨c, tl, rfl⟩
    have hc : cell = Cell.cs s := by simpa using hid
    subst hc
    simp [takeCellD, hsemi]

/-- **C5 amended, witness.** The one-row table `[["A;B", 5]]` satisfies the
hypotheses with `N = 2` and expands to the two described rows. -/
theorem claim_C5_amended_witness :
    preprocessDfExpand [[Cell.cs "A;B", Cell.cn 5]] =
      .ok ((List.range 2).map (fun i => [Cell.cs "A;B", Cell.cn 5].map (takeCellD i))) := by
  have hparts : ∀ u, Cell.cs u ∈ [Cell.cs "A;B", Cell.cn 5] → pyIn ";" u = true →
      2 ≤ (pySplit ';' u).length := by
    intro u hu _
    rcases List.mem_cons.mp hu with h | h
    · have hu2 := Cell.cs.inj h
      subst hu2
      decide
    · rcases List.mem_cons.mp h with h2 | h2
      · exact absurd h2 (by simp)
      · exact absurd h2 (by simp)
  exact (claim_C5_amended [Cell.cs "A;B", Cell.cn 5] "A;B" 2 rfl (by decide) (by decide)
    hparts).1

/-- **C2 counterexample.** `fill_dict` (the hierarchy builder used by
`get_analysis_design`) does *not* fail fast when a token that should hold a
leaf already holds a branch: inserting `"A"` after `"A_B"` silently overwrites
the branch `{"B": "A_B"}` under key `"A"` with the leaf `"A"`, returning a
mapping with no error, so the inserted name `"A_B"` is lost. -/
theorem claim_C2_counterexample :
    getAnalysisDesign ["A_B"] = .ok [("A", .branch [("B", .leaf "A_B")])] ∧
    getAnalysisDesign ["A_B", "A"] = .ok [("A", .leaf "A")] := by
  exact ⟨by decide, by decide⟩

/-- **C2 amended.** The two hierarchy builders diverge on collisions.
`dictizeString` does fail (with a raised `TypeError`) in both directions: when
the final token's key is already present (whether it holds a leaf or a
branch), and when descending through a token that holds a leaf.  `fill_dict`
fails only when descending through a token that holds a leaf; at the final
token it assigns unconditionally, silently overwriting an existing leaf *or
branch* instead of failing. -/
theorem claim_C2_amended :
    (∀ (d : Dict) (t fv : String), (dictGet d t).isSome →
      dictizeP [t] fv d = .error "TypeError") ∧
    (∀ (d : Dict) (t u : String) (rest : List String) (fv s : String),
      dictGet d t = some (.leaf s) →
      dictizeP (t :: u :: rest) fv d = .error "TypeError") ∧
    (∀ (d : Dict) (t u : String) (rest : List String) (s2 s : String),
      dictGet d t = some (.leaf s) →
      fillD (t :: u :: rest) s2 d = .error "TypeError") ∧
    (∀ (d : Dict) (t s : String), fillD [t] s d = .ok (dictSet d t (.leaf s))) := by
  refine ⟨?_, ?_, ?_, ?_⟩
  · intro d t fv hsome
    rcases hget : dictGet d t with _ | v
    · rw [hget] at hsome
      exact absurd hsome (by simp)
    · simp [dictizeP, hget]
  · intro d t u rest fv s hget
    simp [dictizeP, hget]
  · intro d t u rest s2 s hget
    simp [fillD, hget]
  · intro d t s
    rfl

/-- **C2 amended, witness.** Concrete instances of all four behaviors: the
dict `{"A": {"B": "A_B"}}` makes `dictizeString "A"` fail (leaf position holds
a branch) while `fill_dict` silently overwrites it; the dict `{"A": "A"}`
makes both builders fail when descending for `"A_B"`. -/
theorem claim_C2_amended_witness :
    dictizeP ["A"] "A" [("A", .branch [("B", .leaf "A_B")])] = .error "TypeError" ∧
    dictizeP ["A", "B"] "A_B" [("A", .leaf "A")] = .error "TypeError" ∧
    fillD ["A", "B"] "A_B" [("A", .leaf "A")] = .error "TypeError" ∧
    fillD ["A"] "A" [("A", .branch [("B", .leaf "A_B")])] =
      .ok (dictSet [("A", .branch [("B", .leaf "A_B")])] "A" (.leaf "A")) := by
  refine ⟨claim_C2_amended.1 _ "A" "A" (by decide),
    claim_C2_amended.2.1 _ "A" "B" [] "A_B" "A" (by decide),
    claim_C2_amended.2.2.1 _ "A" "B" [] "A_B" "A" (by decide),
    claim_C2_amended.2.2.2 _ "A" "A"⟩

/-! ## Order independence of the `dictizeString` builder (C3)

`dictizeP parts fv d` succeeds exactly when inserting the token path `parts`
never meets a leaf on the way down and its final key is fresh (`canInsertB`);
on success it equals the pure insertion `insertPure`.  Successful insertion
adds exactly one `(path, leaf)` pair to the multiset of leaf paths, and two
mutually non-prefix paths never block each other, which gives permutation
invariance of the built design up to leaf-path multisets. -/

/-- Whether inserting token path `parts` into `d` succeeds. -/
def canInsertB : Dict → List String → Bool
  | _, [] => false
  | d, [t] => (dictGet d t).isNone
  | d, t :: u :: rest =>
    match dictGet d t with
    | none => true
    | some (.branch b) => canInsertB b (u :: rest)
    | some (.leaf _) => false

/-- The pure effect of a successful insertion. -/
def insertPure : Dict → List String → String → Dict
  | d, [], _ => d
  | d, [t], fv => dictSet d t (.leaf fv)
  | d, t :: u :: rest, fv =>
    match dictGet d t with
    | some (.branch b) => dictSet d t (.branch (insertPure b (u :: rest) fv))
    | some (.leaf _) => d
    | none => dictSet d t (.branch (insertPure [] (u :: rest) fv))

theorem canInsertB_nil_dict : ∀ (parts : List String), parts ≠ [] →
    canInsertB [] parts = true := by
  intro parts hne
  cases parts with
  | nil => exact absurd rfl hne
  | cons t rest =>
    cases rest with
    | nil => rfl
    | cons u rest2 => rfl

/-- On a nonempty token path, `dictizeP` is: check `canInsertB`, then either
the pure insertion or a `TypeError`. -/
theorem dictizeP_eq (fv : String) : ∀ (parts : List String) (d : Dict), parts ≠ [] →
    dictizeP parts fv d =
      if canInsertB d parts then .ok (insertPure d parts fv) else .error "TypeError" := by
  intro parts
  induction parts with
  | nil => intro d h; exact absurd rfl h
  | cons t rest ih =>
    intro d _
    cases rest with
    | nil =>
      rcases hget : dictGet d t with _ | v
      · simp [dictizeP, canInsertB, insertPure, hget]
      · simp [dictizeP, canInsertB, insertPure, hget]
    | cons u rest2 =>
      rcases hget : dictGet d t with _ | v
      · have hrec := ih [] (by simp)
        rw [canInsertB_nil_dict (u :: rest2) (by simp)] at hrec
        simp only [if_pos rfl] at hrec
        simp [dictizeP, canInsertB, insertPure, hget, hrec]
      · cases v with
        | leaf s => simp [dictizeP, canInsertB, insertPure, hget]
        | branch b =>
          have hrec := ih b (by simp)
          by_cases hcan : canInsertB b (u :: rest2) = true
          · rw [if_pos hcan] at hrec
            simp [dictizeP, canInsertB, insertPure, hget, hrec, hcan]
          · rw [if_neg hcan] at hrec
            simp only [dictizeP, canInsertB, insertPure, hget, hrec]
            rw [if_neg hcan]

theorem dictGet_dictSet_self (d : Dict) (t : String) (v : Node) :
    dictGet (dictSet d t v) t = some v := by
  induction d with
  | nil => simp [dictSet, dictGet]
  | cons p rest ih =>
    obtain ⟨k1, v1⟩ := p
    by_cases hk : k1 = t
    · simp [dictSet, dictGet, hk]
    · simp [dictSet, dictGet, hk, ih]

theorem dictGet_dictSet_ne (d : Dict) (t u : String) (v : Node) (hne : u ≠ t) :
    dictGet (dictSet d t v) u = dictGet d u := by
  induction d with
  | nil => simp [dictSet, dictGet, Ne.symm hne]
  | cons p rest ih =>
    obtain ⟨k1, v1⟩ := p
    by_cases hk : k1 = t
    · subst hk
      simp [dictSet, dictGet, Ne.symm hne]
    · simp [dictSet, dictGet, hk, ih]

theorem dictSet_of_not_found (d : Dict) (t : String) (v : Node)
    (h : dictGet d t = none) : dictSet d t v = d ++ [(t, v)] := by
  induction d with
  | nil => rfl
  | cons p rest ih =>
    obtain ⟨k1, v1⟩ := p
    by_cases hk : k1 = t
    · rw [dictGet, if_pos hk] at h
      exact absurd h (by simp)
    · rw [dictGet, if_neg hk] at h
      simp [dictSet, hk, ih h]

theorem leafPathsD_append : ∀ (d e : Dict),
    leafPathsD (d ++ e) = leafPathsD d ++ leafPathsD e := by
  intro d e
  induction d with
  | nil => rfl
  | cons p rest ih =>
    obtain ⟨k, n⟩ := p
    simp [leafPathsD, ih]

/-- Updating the (first) entry at an existing key replaces exactly that entry's
contribution to the leaf paths, leaving the surrounding contributions fixed. -/
theorem leafPathsD_dictSet_found : ∀ (d : Dict) (t : String) (n0 n : Node),
    dictGet d t = some n0 →
    ∃ L R, leafPathsD d = L ++ (leafPathsN n0).map (fun p => (t :: p.1, p.2)) ++ R ∧
      leafPathsD (dictSet d t n) = L ++ (leafPathsN n).map (fun p => (t :: p.1, p.2)) ++ R := by
  intro d
  induction d with
  | nil =>
    intro t n0 n h
    simp [dictGet] at h
  | cons p rest ih =>
    intro t n0 n h
    obtain ⟨k1, v1⟩ := p
    by_cases hk : k1 = t
    · subst hk
      rw [dictGet, if_pos rfl] at h
      have hv : v1 = n0 := Option.some.inj h
      subst hv
      refine ⟨[], leafPathsD rest, by simp [leafPathsD], ?_⟩
      simp [dictSet, leafPathsD]
    · rw [dictGet, if_neg hk] at h
      obtain ⟨L, R, h1, h2⟩ := ih t n0 n h
      refine ⟨(leafPathsN v1).map (fun p => (k1 :: p.1, p.2)) ++ L, R, ?_, ?_⟩
      · simp [leafPathsD, h1]
      · simp [dictSet, hk, leafPathsD, h2]

/-- A successful insertion adds exactly the pair `(parts, fv)` to the leaf
paths, up to permutation. -/
theorem leafPathsD_insertPure : ∀ (parts : List String) (d : Dict) (fv : String),
    parts ≠ [] → canInsertB d parts = true →
    List.Perm (leafPathsD (insertPure d parts fv)) ((parts, fv) :: leafPathsD d) := by
  intro parts
  induction parts with
  | nil => intro d fv h; exact absurd rfl h
  | cons t rest ih =>
    intro d fv _ hcan
    cases rest with
    | nil =>
      have hget : dictGet d t = none := by
        rcases hg : dictGet d t with _ | v
        · rfl
        · simp [canInsertB, hg] at hcan
      show List.Perm (leafPathsD (dictSet d t (.leaf fv))) (([t], fv) :: leafPathsD d)
      rw [dictSet_of_not_found d t _ hget, leafPathsD_append]
      have hone : leafPathsD [(t, Node.leaf fv)] = [([t], fv)] := by
        simp [leafPathsD, leafPathsN]
      rw [hone]
      exact List.perm_append_singleton _ _
    | cons u rest2 =>
      rcases hget : dictGet d t with _ | v
      · have hcan2 : canInsertB [] (u :: rest2) = true := canInsertB_nil_dict _ (by simp)
        have hrec := ih [] fv (by simp) hcan2
        simp only [insertPure, hget]
        rw [dictSet_of_not_found d t _ hget, leafPathsD_append]
        have hone : leafPathsD [(t, Node.branch (insertPure [] (u :: rest2) fv))]
            = (leafPathsD (insertPure [] (u :: rest2) fv)).map (fun p => (t :: p.1, p.2)) := by
          simp [leafPathsD, leafPathsN]
        rw [hone]
        have hmap : List.Perm
            ((leafPathsD (insertPure [] (u :: rest2) fv)).map (fun p => (t :: p.1, p.2)))
            [((t :: u :: rest2), fv)] := by
          have h2 := hrec.map (fun p => (t :: p.1, p.2))
          simpa [leafPathsD] using h2
        refine (List.Perm.append_left (leafPathsD d) hmap).trans ?_
        exact List.perm_append_singleton _ _
      · cases v with
        | leaf s => simp [canInsertB, hget] at hcan
        | branch b =>
          have hcanb : canInsertB b (u :: rest2) = true := by
            simpa [canInsertB, hget] using hcan
          have hrec := ih b fv (by simp) hcanb
          simp only [insertPure, hget]
          obtain ⟨L, R, h1, h2⟩ := leafPathsD_dictSet_found d t (.branch b)
            (.branch (insertPure b (u :: rest2) fv)) hget
          rw [h2, h1]
          simp only [leafPathsN]
          have hmap : List.Perm
              ((leafPathsD (insertPure b (u :: rest2) fv)).map (fun p => (t :: p.1, p.2)))
              (((t :: u :: rest2), fv) :: (leafPathsD b).map (fun p => (t :: p.1, p.2))) := by
            have h2m := hrec.map (fun p => (t :: p.1, p.2))
            simpa using h2m
          rw [List.append_assoc, List.append_assoc]
          refine (List.Perm.append_left L (hmap.append_right R)).trans ?_
          exact List.perm_middle

theorem pySplit_ne_nil (c : Char) (s : String) : pySplit c s ≠ [] := by
  unfold pySplit
  intro h
  exact splitCL_ne_nil c s.data (by simpa using h)

/-- Inserting one token path does not block the insertion of any other token
path that is neither a prefix nor an extension of it. -/
theorem canInsertB_preserved : ∀ (p1 : List String) (d : Dict) (fv : String) (p2 : List String),
    p1 ≠ [] → p2 ≠ [] →
    canInsertB d p1 = true → canInsertB d p2 = true →
    ¬ p1 <+: p2 → ¬ p2 <+: p1 →
    canInsertB (insertPure d p1 fv) p2 = true := by
  intro p1
  induction p1 with
  | nil => intro d fv p2 h; exact absurd rfl h
  | cons t1 r1 ih =>
    intro d fv p2 _ hp2ne hcan1 hcan2 hpre1 hpre2
    cases r1 with
    | nil =>
      have hget : dictGet d t1 = none := by
        rcases hg : dictGet d t1 with _ | v
        · rfl
        · simp [canInsertB, hg] at hcan1
      cases p2 with
      | nil => exact absurd rfl hp2ne
      | cons t2 r2 =>
        have hne : t2 ≠ t1 := by
          intro he
          subst he
          exact hpre1 (by simp)
        show canInsertB (dictSet d t1 (.leaf fv)) (t2 :: r2) = true
        have hgs : dictGet (dictSet d t1 (.leaf fv)) t2 = dictGet d t2 :=
          dictGet_dictSet_ne d t1 t2 _ hne
        cases r2 with
        | nil =>
          simp only [canInsertB, hgs]
          simpa [canInsertB] using hcan2
        | cons u2 r2a =>
          simp only [canInsertB, hgs]
          simpa [canInsertB] using hcan2
    | cons u1 r1a =>
      cases p2 with
      | nil => exact absurd rfl hp2ne
      | cons t2 r2 =>
        by_cases hne : t2 = t1
        · subst hne
          cases r2 with
          | nil => exact absurd (by simp : [t2] <+: t2 :: u1 :: r1a) hpre2
          | cons u2 r2a =>
            have hpre1a : ¬ (u1 :: r1a) <+: (u2 :: r2a) := fun h =>
              hpre1 (List.cons_prefix_cons.mpr ⟨rfl, h⟩)
            have hpre2a : ¬ (u2 :: r2a) <+: (u1 :: r1a) := fun h =>
              hpre2 (List.cons_prefix_cons.mpr ⟨rfl, h⟩)
            rcases hget : dictGet d t2 with _ | v
            · simp only [insertPure, hget]
              have hself := dictGet_dictSet_self d t2 (Node.branch (insertPure [] (u1 :: r1a) fv))
              show canInsertB
                (dictSet d t2 (.branch (insertPure [] (u1 :: r1a) fv))) (t2 :: u2 :: r2a) = true
              simp only [canInsertB, hself]
              exact ih [] fv (u2 :: r2a) (by simp) (by simp)
                (canInsertB_nil_dict _ (by simp)) (canInsertB_nil_dict _ (by simp)) hpre1a hpre2a
            · cases v with
              | leaf s => simp [canInsertB, hget] at hcan1
              | branch b =>
                have hcanb1 : canInsertB b (u1 :: r1a) = true := by
                  simpa [canInsertB, hget] using hcan1
                have hcanb2 : canInsertB b (u2 :: r2a) = true := by
                  simpa [canInsertB, hget] using hcan2
                simp only [insertPure, hget]
                have hself := dictGet_dictSet_self d t2 (Node.branch (insertPure b (u1 :: r1a) fv))
                show canInsertB
                  (dictSet d t2 (.branch (insertPure b (u1 :: r1a) fv))) (t2 :: u2 :: r2a) = true
                simp only [canInsertB, hself]
                exact ih b fv (u2 :: r2a) (by simp) (by simp) hcanb1 hcanb2 hpre1a hpre2a
        · have hins : ∀ n, dictGet (dictSet d t1 n) t2 = dictGet d t2 := fun n =>
            dictGet_dictSet_ne d t1 t2 n hne
          rcases hget : dictGet d t1 with _ | v
          · simp only [insertPure, hget]
            cases r2 with
            | nil =>
              simp only [canInsertB, hins]
              simpa [canInsertB] using hcan2
            | cons u2 r2a =>
              simp only [canInsertB, hins]
              simpa [canInsertB] using hcan2
          · cases v with
            | leaf s => simp [canInsertB, hget] at hcan1
            | branch b =>
              simp only [insertPure, hget]
              cases r2 with
              | nil =>
                simp only [canInsertB, hins]
                simpa [canInsertB] using hcan2
              | cons u2 r2a =>
                simp only [canInsertB, hins]
                simpa [canInsertB] using hcan2

/-- Folding `dictizeString` over a list of names whose token paths are
pairwise mutually non-prefix succeeds, and the leaf paths of the result are
exactly the `(token path, name)` pairs of the inserted names (plus what was
already there), up to permutation. -/
theorem buildDesignFrom_perm : ∀ (l : List String) (d0 : Dict),
    (∀ n ∈ l, canInsertB d0 (pySplit '_' n) = true) →
    List.Pairwise
      (fun a b => ¬ pySplit '_' a <+: pySplit '_' b ∧ ¬ pySplit '_' b <+: pySplit '_' a) l →
    ∃ d, buildDesignFrom d0 l = .ok d ∧
      List.Perm (leafPathsD d) (l.map (fun n => (pySplit '_' n, n)) ++ leafPathsD d0) := by
  intro l
  induction l with
  | nil =>
    intro d0 _ _
    exact ⟨d0, rfl, by simp⟩
  | cons n rest ih =>
    intro d0 hcan hpw
    have hne : pySplit '_' n ≠ [] := pySplit_ne_nil '_' n
    have hcann := hcan n (List.mem_cons_self _ _)
    have hstep : dictizeString n n d0 = .ok (insertPure d0 (pySplit '_' n) n) := by
      unfold dictizeString
      rw [dictizeP_eq n (pySplit '_' n) d0 hne, if_pos hcann]
    have hpwa := List.pairwise_cons.mp hpw
    have hcanrest : ∀ m ∈ rest,
        canInsertB (insertPure d0 (pySplit '_' n) n) (pySplit '_' m) = true := by
      intro m hm
      have hrel := hpwa.1 m hm
      exact canInsertB_preserved (pySplit '_' n) d0 n (pySplit '_' m) hne
        (pySplit_ne_nil _ _) hcann (hcan m (List.mem_cons_of_mem _ hm)) hrel.1 hrel.2
    obtain ⟨d, hd, hperm⟩ := ih (insertPure d0 (pySplit '_' n) n) hcanrest hpwa.2
    refine ⟨d, ?_, ?_⟩
    · simp only [buildDesignFrom, hstep]
      exact hd
    · have heff := leafPathsD_insertPure (pySplit '_' n) d0 n hne hcann
      refine hperm.trans ?_
      refine (List.Perm.append_left _ heff).trans ?_
      exact List.perm_middle

/-- **C3 counterexample.** The hierarchy builder is not order-independent: the
two orderings of the set `{"A_B", "A"}` do not produce structurally identical
nested mappings — `get_analysis_design(["A_B", "A"])` returns the mapping
`{"A": "A"}` while the permuted input `["A", "A_B"]` produces no mapping at
all (it raises a `TypeError`). -/
theorem claim_C3_counterexample :
    List.Perm ["A_B", "A"] ["A", "A_B"] ∧
    getAnalysisDesign ["A_B", "A"] = .ok [("A", .leaf "A")] ∧
    getAnalysisDesign ["A", "A_B"] = .error "TypeError" := by
  exact ⟨List.Perm.swap "A" "A_B" [], by decide, by decide⟩

/-- **C3 amended.** For names whose underscore-token paths are pairwise
mutually non-prefix (in particular any duplicate-free set of uniform token
arity), the `dictizeString` builder is order-independent: every ordering
builds successfully and any two orderings yield nested mappings with the same
multiset of `(token path, leaf)` pairs — i.e. the same keys and the same leaf
values at every level, since every branch of a built mapping lies on some leaf
path.  Without that restriction order independence fails (see the
counterexample, where one ordering errors and the other returns a mapping). -/
theorem claim_C3_amended :
    ∀ (l1 l2 : List String),
      List.Pairwise
        (fun a b => ¬ pySplit '_' a <+: pySplit '_' b ∧ ¬ pySplit '_' b <+: pySplit '_' a) l1 →
      List.Perm l1 l2 →
      ∃ d1 d2, buildDesign l1 = .ok d1 ∧ buildDesign l2 = .ok d2 ∧
        List.Perm (leafPathsD d1) (leafPathsD d2) ∧
        List.Perm (leafPathsD d1) (l1.map (fun n => (pySplit '_' n, n))) := by
  intro l1 l2 hpw hperm
  have hpw2 := (hperm.pairwise_iff (fun h => ⟨h.2, h.1⟩)).mp hpw
  obtain ⟨d1, h1, hp1⟩ := buildDesignFrom_perm l1 []
    (fun n _ => canInsertB_nil_dict _ (pySplit_ne_nil _ _)) hpw
  obtain ⟨d2, h2, hp2⟩ := buildDesignFrom_perm l2 []
    (fun n _ => canInsertB_nil_dict _ (pySplit_ne_nil _ _)) hpw2
  have hp1a : List.Perm (leafPathsD d1) (l1.map (fun n => (pySplit '_' n, n))) := by
    simpa [leafPathsD] using hp1
  have hp2a : List.Perm (leafPathsD d2) (l2.map (fun n => (pySplit '_' n, n))) := by
    simpa [leafPathsD] using hp2
  exact ⟨d1, d2, h1, h2, hp1a.trans ((hperm.map _).trans hp2a.symm), hp1a⟩

/-- **C3 amended, witness.** The two orderings of `{"A_1", "B_2"}` both build
successfully and agree up to leaf-path permutation. -/
theorem claim_C3_amended_witness :
    ∃ d1 d2, buildDesign ["A_1", "B_2"] = .ok d1 ∧ buildDesign ["B_2", "A_1"] = .ok d2 ∧
      List.Perm (leafPathsD d1) (leafPathsD d2) ∧
      List.Perm (leafPathsD d1) (["A_1", "B_2"].map (fun n => (pySplit '_' n, n))) :=
  claim_C3_amended ["A_1", "B_2"] ["B_2", "A_1"] (by decide) (List.Perm.swap "B_2" "A_1" [])

/-! ## Injectivity of decimal rendering (`str(int)` in the source)

`format_double_indx` renames with `str(cnt[ind])`, embedded as `toString`
(i.e. `Nat.repr`).  For the no-duplicates analysis of C7 we prove `Nat.repr`
injective by relating core's fuelled `toDigitsCore` to `Nat.digits`. -/

theorem toDigitsCore_eq_digits (fuel : Nat) :
    ∀ (n : Nat) (acc : List Char), n ≠ 0 → n < fuel →
      Nat.toDigitsCore 10 fuel n acc
        = ((Nat.digits 10 n).map Nat.digitChar).reverse ++ acc := by
  induction fuel with
  | zero => intro n acc h0 hlt; omega
  | succ f ih =>
    intro n acc h0 hlt
    rw [Nat.toDigitsCore]
    by_cases hdiv : n / 10 = 0
    · rw [if_pos hdiv, Nat.digits_def' (by norm_num : (1 : Nat) < 10) (Nat.pos_of_ne_zero h0),
        hdiv]
      simp
    · rw [if_neg hdiv]
      have hx : n / 10 < n := Nat.div_lt_self (Nat.pos_of_ne_zero h0) (by norm_num)
      rw [ih (n / 10) (Nat.digitChar (n % 10) :: acc) hdiv (by omega),
        Nat.digits_def' (by norm_num : (1 : Nat) < 10) (Nat.pos_of_ne_zero h0)]
      simp

theorem nat_repr_data (n : Nat) (h : n ≠ 0) :
    (Nat.repr n).data = ((Nat.digits 10 n).map Nat.digitChar).reverse := by
  show (Nat.toDigits 10 n).asString.data = _
  unfold Nat.toDigits
  rw [toDigitsCore_eq_digits (n + 1) n [] h (by omega)]
  simp [List.asString]

theorem digitChar_inj (a b : Nat) (ha : a < 10) (hb : b < 10)
    (h : Nat.digitChar a = Nat.digitChar b) : a = b := by
  have hfin : ∀ x : Fin 10, ∀ y : Fin 10,
      Nat.digitChar x.val = Nat.digitChar y.val → x = y := by decide
  have h2 := hfin ⟨a, ha⟩ ⟨b, hb⟩ h
  exact congrArg Fin.val h2

theorem map_digitChar_inj : ∀ (l1 l2 : List Nat),
    (∀ x ∈ l1, x < 10) → (∀ x ∈ l2, x < 10) →
    l1.map Nat.digitChar = l2.map Nat.digitChar → l1 = l2 := by
  intro l1
  induction l1 with
  | nil =>
    intro l2 _ _ h
    cases l2 with
    | nil => rfl
    | cons y ys => simp at h
  | cons x xs ih =>
    intro l2 h1 h2 h
    cases l2 with
    | nil => simp at h
    | cons y ys =>
      simp only [List.map_cons, List.cons.injEq] at h
      have hx := digitChar_inj x y (h1 x (List.mem_cons_self _ _))
        (h2 y (List.mem_cons_self _ _)) h.1
      rw [hx, ih ys (fun z hz => h1 z (List.mem_cons_of_mem _ hz))
        (fun z hz => h2 z (List.mem_cons_of_mem _ hz)) h.2]

theorem nat_repr_injective : ∀ (m n : Nat), Nat.repr m = Nat.repr n → m = n := by
  have hzero : ∀ n : Nat, n ≠ 0 → Nat.repr n ≠ Nat.repr 0 := by
    intro n hn h
    have hd := congrArg String.data h
    rw [nat_repr_data n hn] at hd
    have hd2 : (Nat.digits 10 n).map Nat.digitChar = ['0'] := by
      have := congrArg List.reverse hd
      simpa using this
    have hsing : Nat.digits 10 n = [0] := by
      rcases hdig : Nat.digits 10 n with _ | ⟨d, tl⟩
      · rw [hdig] at hd2
        simp at hd2
      · rw [hdig] at hd2
        simp only [List.map_cons, List.cons.injEq] at hd2
        have hdlt : d < 10 := Nat.digits_lt_base (by norm_num) (hdig ▸ List.mem_cons_self d tl)
        have hd0 : d = 0 := digitChar_inj d 0 hdlt (by norm_num) hd2.1
        have htl : tl = [] := List.map_eq_nil_iff.mp hd2.2
        rw [hd0, htl]
    have := Nat.ofDigits_digits 10 n
    rw [hsing] at this
    simp [Nat.ofDigits] at this
    exact hn this.symm
  intro m n h
  by_cases hm : m = 0
  · by_cases hn : n = 0
    · rw [hm, hn]
    · subst hm
      exact absurd h.symm (hzero n hn)
  · by_cases hn : n = 0
    · subst hn
      exact absurd h (hzero m hm)
    · have hd := congrArg String.data h
      rw [nat_repr_data m hm, nat_repr_data n hn] at hd
      have hmap : (Nat.digits 10 m).map Nat.digitChar = (Nat.digits 10 n).map Nat.digitChar := by
        have := congrArg List.reverse hd
        simpa using this
      have hdig : Nat.digits 10 m = Nat.digits 10 n :=
        map_digitChar_inj _ _ (fun x hx => Nat.digits_lt_base (by norm_num) hx)
          (fun x hx => Nat.digits_lt_base (by norm_num) hx) hmap
      have h1 := Nat.ofDigits_digits 10 m
      have h2 := Nat.ofDigits_digits 10 n
      rw [← h1, ← h2, hdig]

theorem append_underscore_inj : ∀ (x y a b : List Char), '_' ∉ x → '_' ∉ y →
    x ++ '_' :: a = y ++ '_' :: b → x = y ∧ a = b := by
  intro x
  induction x with
  | nil =>
    intro y a b _ hy h
    cases y with
    | nil =>
      refine ⟨rfl, ?_⟩
      simpa using h
    | cons c cs =>
      simp only [List.nil_append, List.cons_append] at h
      obtain ⟨h1, _⟩ := List.cons.inj h
      subst h1
      exact absurd (List.mem_cons_self _ _) hy
  | cons c cs ih =>
    intro y a b hx hy h
    cases y with
    | nil =>
      simp only [List.cons_append, List.nil_append] at h
      obtain ⟨h1, _⟩ := List.cons.inj h
      subst h1
      exact absurd (List.mem_cons_self _ _) hx
    | cons e es =>
      simp only [List.cons_append] at h
      obtain ⟨h1, h2⟩ := List.cons.inj h
      subst h1
      have hx2 : '_' ∉ cs := fun hm => hx (List.mem_cons_of_mem _ hm)
      have hy2 : '_' ∉ es := fun hm => hy (List.mem_cons_of_mem _ hm)
      obtain ⟨hxy, hab⟩ := ih es a b hx2 hy2 h2
      exact ⟨by rw [hxy], hab⟩

theorem string_append_underscore_inj (x y a b : String)
    (hx : '_' ∉ x.data) (hy : '_' ∉ y.data)
    (h : x ++ "_" ++ a = y ++ "_" ++ b) : x = y ∧ a = b := by
  have hd := congrArg String.data h
  simp only [String.data_append, underscore_data, List.append_assoc, List.singleton_append] at hd
  obtain ⟨h1, h2⟩ := append_underscore_inj x.data y.data a.data b.data hx hy hd
  exact ⟨String.ext h1, String.ext h2⟩

theorem underscore_mem_append (y r : String) : '_' ∈ (y ++ "_" ++ r).data := by
  simp [String.data_append, underscore_data]

theorem mem_specResolveGo : ∀ (rest pre full : List String) (z : String),
    z ∈ specResolveGo full pre rest →
    ∃ y, y ∈ rest ∧ ((full.count y ≤ 1 ∧ z = y) ∨
      (2 ≤ full.count y ∧ ∃ k, pre.count y + 1 ≤ k ∧ z = y ++ "_" ++ toString k)) := by
  intro rest
  induction rest with
  | nil =>
    intro pre full z hz
    simp [specResolveGo] at hz
  | cons x xs ih =>
    intro pre full z hz
    simp only [specResolveGo] at hz
    rcases List.mem_cons.mp hz with hhd | htl
    · by_cases hc : 2 ≤ full.count x
      · rw [if_pos hc] at hhd
        exact ⟨x, List.mem_cons_self _ _, Or.inr ⟨hc, pre.count x + 1, le_refl _, hhd⟩⟩
      · rw [if_neg hc] at hhd
        exact ⟨x, List.mem_cons_self _ _, Or.inl ⟨by omega, hhd⟩⟩
    · obtain ⟨y, hy, hcase⟩ := ih (pre ++ [x]) full z htl
      refine ⟨y, List.mem_cons_of_mem _ hy, ?_⟩
      rcases hcase with h | ⟨hc, k, hk, hzk⟩
      · exact Or.inl h
      · refine Or.inr ⟨hc, k, ?_, hzk⟩
        have hmono : pre.count y ≤ (pre ++ [x]).count y := by
          rw [List.count_append]
          exact Nat.le_add_right _ _
        omega

theorem specResolveGo_nodup : ∀ (rest pre full : List String),
    full = pre ++ rest →
    (∀ s ∈ full, '_' ∉ s.data) →
    (specResolveGo full pre rest).Nodup := by
  intro rest
  induction rest with
  | nil =>
    intro pre full _ _
    simp [specResolveGo]
  | cons x xs ih =>
    intro pre full hfull hfree
    simp only [specResolveGo]
    rw [List.nodup_cons]
    refine ⟨?_, ih (pre ++ [x]) full (by rw [hfull, List.append_assoc]; rfl) hfree⟩
    intro hmem
    obtain ⟨y, hy, hcase⟩ := mem_specResolveGo xs (pre ++ [x]) full _ hmem
    have hxfull : x ∈ full := by
      rw [hfull]
      exact List.mem_append.mpr (Or.inr (List.mem_cons_self _ _))
    have hyfull : y ∈ full := by
      rw [hfull]
      exact List.mem_append.mpr (Or.inr (List.mem_cons_of_mem _ hy))
    have hxfree : '_' ∉ x.data := hfree x hxfull
    have hyfree : '_' ∉ y.data := hfree y hyfull
    by_cases hcx : 2 ≤ full.count x
    · rcases hcase with ⟨hc1, hz⟩ | ⟨hc2, k, hk, hz⟩
      · rw [if_pos hcx] at hz
        apply hyfree
        rw [← hz]
        exact underscore_mem_append x (toString (pre.count x + 1))
      · rw [if_pos hcx] at hz
        obtain ⟨hxy, ht⟩ := string_append_underscore_inj x y _ _ hxfree hyfree hz
        subst hxy
        have hkk : pre.count x + 1 = k := nat_repr_injective _ _ ht
        have hcount : (pre ++ [x]).count x = pre.count x + 1 := by
          simp [List.count_append]
        rw [hcount] at hk
        omega
    · rcases hcase with ⟨hc1, hz⟩ | ⟨hc2, k, hk, hz⟩
      · rw [if_neg hcx] at hz
        subst hz
        have h1 : 1 ≤ xs.count x := List.one_le_count_iff.mpr hy
        have h2 : full.count x = pre.count x + ((x :: xs).count x) := by
          rw [hfull, List.count_append]
        rw [List.count_cons_self] at h2
        omega
      · rw [if_neg hcx] at hz
        apply hxfree
        rw [hz]
        exact underscore_mem_append y (toString k)

/-- **C7 counterexample.** The output of the duplicate-index resolver can
contain duplicates even though all input duplicates are exact case-sensitive
string matches: on `["A", "A", "A_1"]` the duplicated value `"A"` is renamed
to `"A_1"`, `"A_2"`, colliding with the untouched singleton `"A_1"`. -/
theorem claim_C7_counterexample :
    format_double_indx ["A", "A", "A_1"] = ["A_1", "A_2", "A_1"] ∧
    ¬ (["A_1", "A_2", "A_1"] : List String).Nodup := by
  exact ⟨by decide, by decide⟩

/-- **C7 amended.** The output of `format_double_indx` has no duplicate values
provided additionally that no input value contains an underscore (so no input
can collide with a generated rename `value_k`); the index built from it then
has no duplicate and no null entries (every entry is a string — `str` is
applied and a missing value is stringified).  Without that proviso, an input
such as `["A", "A", "A_1"]` produces a duplicated output. -/
theorem claim_C7_amended :
    ∀ l : List String, (∀ s ∈ l, '_' ∉ s.data) → (format_double_indx l).Nodup := by
  intro l hfree
  have heq : format_double_indx l = specResolveGo l [] l :=
    fdiGo_eq_specResolveGo l l [] (fun _ => 1) (fun y _ => by simp)
  rw [heq]
  exact specResolveGo_nodup l [] l rfl hfree

/-- **C7 amended, witness.** The underscore-free input `["A", "A", "B"]`
resolves to a duplicate-free index. -/
theorem claim_C7_amended_witness :
    (∀ s ∈ ["A", "A", "B"], '_' ∉ s.data) ∧ (format_double_indx ["A", "A", "B"]).Nodup :=
  ⟨by decide, claim_C7_amended ["A", "A", "B"] (by decide)⟩

end MSPy
